import Mathlib

/-!  Verification of the go-config hierarchical key-tree engine.

The Go sources are embedded shallowly: `map[string]any` trees become
association lists of `Value`, stateful loops become structural or
well-founded recursion, and fallible Go functions return `Except`.
-/

namespace GoConfig

/-- A dynamic configuration value, modelling Go's `any` as it occurs in a
decoded configuration tree: scalars, arrays, and string-keyed maps
(`map[string]any`).  Non-string-keyed Go maps, which `isStringKeyMap`
rejects and the engine treats as opaque scalars, do not occur in decoded
trees and are not modelled. -/
inductive Value where
  | vNull : Value
  | vBool : Bool → Value
  | vInt  : Int → Value
  | vStr  : String → Value
  | vArr  : List Value → Value
  | vMap  : List (String × Value) → Value
deriving Repr

/-- A decoded configuration tree: the embedding of `map[string]any`.
Go maps are unordered with unique keys; the embedding is an association
list, with uniqueness of keys (`nodupKeys`) carried as a hypothesis where
a proof needs it. -/
abbrev Tree := List (String × Value)

/-- Association-list lookup, the embedding of Go's `m[k]` read. -/
def lookupTree : Tree → String → Option Value
  | [], _ => none
  | (k1, v) :: rest, k => if k1 = k then some v else lookupTree rest k

/-- Association-list update, the embedding of Go's `m[k] = v` write on a
key already present (first occurrence replaced). -/
def setKey : Tree → String → Value → Tree
  | [], k, v => [(k, v)]
  | (k1, v1) :: rest, k, v =>
    if k1 = k then (k1, v) :: rest else (k1, v1) :: setKey rest k v

/-- The embedding of Go's `delete(m, k)`. -/
def removeKey (m : Tree) (k : String) : Tree :=
  m.filter (fun p => p.1 ≠ k)

/-- The Go map invariant: every key occurs at most once per level. -/
def nodupKeys (m : Tree) : Prop :=
  (m.map Prod.fst).Nodup

instance (m : Tree) : Decidable (nodupKeys m) := by
  unfold nodupKeys; infer_instance

/-- `isStringKeyMap` from map.go, as a predicate on embedded values. -/
def Value.isMap : Value → Bool
  | .vMap _ => true
  | _ => false

mutual
/-- `cloneIfMap` from map.go: deep-clones string-keyed maps so merged trees
never alias, and returns every other value unchanged. -/
def cloneIfMap (v : Value) : Value :=
  match v with
  | .vMap m => .vMap (cloneTree m)
  | v => v

/-- The entry loop of `cloneIfMap`: clone nested maps, copy the rest. -/
def cloneTree (m : Tree) : Tree :=
  match m with
  | [] => []
  | (k, v) :: rest =>
    (k, if (Value.isMap v) then cloneIfMap v else v) :: cloneTree rest
end

mutual
/-- `DeepMerge` from map.go: for every key of `src`, merge into the
matching `dst` entry when one exists, otherwise insert a clone.  Go
iterates `src` in unspecified map order; the embedding processes entries
in list order, and the per-key characterization proved below is
order-independent (each `src` key touches only its own `dst` slot). -/
def DeepMerge (dst src : Tree) : Tree :=
  match src with
  | [] => dst
  | (k, sv) :: rest =>
    let dst1 :=
      match lookupTree dst k with
      | some dv => setKey dst k (mergeValues dv sv)
      | none => dst ++ [(k, cloneIfMap sv)]
    DeepMerge dst1 rest

/-- `mergeValues` from map.go: recurse when both sides are string-keyed
maps, otherwise the src value (cloned if a map) replaces dst's wholly. -/
def mergeValues (dstVal srcVal : Value) : Value :=
  match dstVal, srcVal with
  | .vMap md, .vMap ms => .vMap (DeepMerge md ms)
  | _, s => cloneIfMap s
end

mutual
/-- Cloning is the identity on embedded values: the Go clone only serves
to break pointer aliasing, which the pure embedding has none of. -/
theorem cloneIfMap_eq : (v : Value) → cloneIfMap v = v
  | .vNull => rfl
  | .vBool _ => rfl
  | .vInt _ => rfl
  | .vStr _ => rfl
  | .vArr _ => rfl
  | .vMap m => by rw [cloneIfMap, cloneTree_eq m]

/-- Entry-wise form of `cloneIfMap_eq`. -/
theorem cloneTree_eq : (m : Tree) → cloneTree m = m
  | [] => rfl
  | (k, v) :: rest => by
    rw [cloneTree, cloneIfMap_eq v, cloneTree_eq rest, ite_self]
end

theorem lookupTree_setKey_self (m : Tree) (k : String) (v : Value) :
    lookupTree (setKey m k v) k = some v := by
  induction m with
  | nil => simp [setKey, lookupTree]
  | cons p rest ih =>
    obtain ⟨k1, v1⟩ := p
    by_cases h : k1 = k <;> simp [setKey, lookupTree, h, ih]

theorem lookupTree_setKey_of_ne (m : Tree) (kw k : String) (v : Value)
    (h : kw ≠ k) : lookupTree (setKey m kw v) k = lookupTree m k := by
  induction m with
  | nil => simp [setKey, lookupTree, h]
  | cons p rest ih =>
    obtain ⟨k1, v1⟩ := p
    by_cases h1 : k1 = kw
    · subst h1
      simp [setKey, lookupTree, h]
    · simp [setKey, lookupTree, h1, ih]

theorem lookupTree_append_self (m : Tree) (k : String) (v : Value)
    (h : lookupTree m k = none) : lookupTree (m ++ [(k, v)]) k = some v := by
  induction m with
  | nil => simp [lookupTree]
  | cons p rest ih =>
    obtain ⟨k1, v1⟩ := p
    by_cases h1 : k1 = k
    · simp [lookupTree, h1] at h
    · simp only [lookupTree, h1, if_neg, List.cons_append] at h ⊢
      exact ih h

theorem lookupTree_append_of_ne (m : Tree) (kw k : String) (v : Value)
    (h : kw ≠ k) : lookupTree (m ++ [(kw, v)]) k = lookupTree m k := by
  induction m with
  | nil => simp [lookupTree, h]
  | cons p rest ih =>
    obtain ⟨k1, v1⟩ := p
    by_cases h1 : k1 = k <;> simp [lookupTree, h1, ih]

theorem lookupTree_eq_none_of_not_mem (m : Tree) (k : String)
    (h : k ∉ m.map Prod.fst) : lookupTree m k = none := by
  induction m with
  | nil => rfl
  | cons p rest ih =>
    obtain ⟨k1, v1⟩ := p
    simp only [List.map_cons, List.mem_cons, not_or] at h
    have h1 : k1 ≠ k := fun hx => h.1 hx.symm
    simp [lookupTree, h1, ih h.2]

/-- A key absent from `src` is untouched by `DeepMerge`: no `nodupKeys`
hypothesis is needed, since absence means no occurrence at all. -/
theorem lookupTree_DeepMerge_of_src_none (dst src : Tree) (k : String)
    (h : lookupTree src k = none) :
    lookupTree (DeepMerge dst src) k = lookupTree dst k := by
  induction src generalizing dst with
  | nil => rfl
  | cons p rest ih =>
    obtain ⟨k1, sv⟩ := p
    have h1 : k1 ≠ k := by
      intro hx
      simp [lookupTree, hx] at h
    have h2 : lookupTree rest k = none := by
      simpa [lookupTree, h1] using h
    rw [DeepMerge]
    cases hd : lookupTree dst k1 <;>
      simp only [hd, ih _ h2, lookupTree_setKey_of_ne _ _ _ _ h1,
        lookupTree_append_of_ne _ _ _ _ h1]

/-- The one-key characterization of `DeepMerge`: at a key `src` holds
(with unique keys), the result holds the merge of the two entries, or a
clone of `src`'s when `dst` lacks the key. -/
theorem lookupTree_DeepMerge_of_src_some (dst src : Tree) (k : String)
    (sv : Value) (hnd : nodupKeys src) (h : lookupTree src k = some sv) :
    lookupTree (DeepMerge dst src) k =
      some (match lookupTree dst k with
            | some dv => mergeValues dv sv
            | none => cloneIfMap sv) := by
  induction src generalizing dst with
  | nil => simp [lookupTree] at h
  | cons p rest ih =>
    obtain ⟨k1, sv1⟩ := p
    rw [nodupKeys, List.map_cons, List.nodup_cons] at hnd
    have hnd1 : k1 ∉ rest.map Prod.fst := hnd.1
    have hndr : nodupKeys rest := hnd.2
    by_cases h1 : k1 = k
    · subst h1
      have hsv : sv1 = sv := by simpa [lookupTree] using h
      subst hsv
      have hrest : lookupTree rest k1 = none :=
        lookupTree_eq_none_of_not_mem _ _ hnd1
      rw [DeepMerge]
      cases hd : lookupTree dst k1 with
      | none =>
        simp only [hd]
        rw [lookupTree_DeepMerge_of_src_none _ _ _ hrest,
          lookupTree_append_self _ _ _ hd]
      | some dv =>
        simp only [hd]
        rw [lookupTree_DeepMerge_of_src_none _ _ _ hrest,
          lookupTree_setKey_self]
    · have hrest : lookupTree rest k = some sv := by
        simpa [lookupTree, h1] using h
      rw [DeepMerge]
      cases hd : lookupTree dst k1 with
      | none =>
        simp only [hd]
        rw [ih _ hndr hrest, lookupTree_append_of_ne _ _ _ _ h1]
      | some dv =>
        simp only [hd]
        rw [ih _ hndr hrest, lookupTree_setKey_of_ne _ _ _ _ h1]

theorem mergeValues_of_src_not_map (dv v : Value) (hm : v.isMap = false) :
    mergeValues dv v = v := by
  cases dv <;> cases v <;>
    first
    | exact cloneIfMap_eq _
    | simp [Value.isMap] at hm

/-- C3.  For all trees A and B and every key k present in B such that B's
value at k is not a nested string-keyed map, the result of merging B into
A maps k to B's value at k (the src value replaces dst's value wholly;
arrays and scalars are never merged element-wise). -/
theorem deepMerge_src_value_wins (A B : Tree) (k : String) (v : Value)
    (hnd : nodupKeys B) (hv : lookupTree B k = some v)
    (hm : v.isMap = false) :
    lookupTree (DeepMerge A B) k = some v := by
  rw [lookupTree_DeepMerge_of_src_some A B k v hnd hv]
  cases hA : lookupTree A k with
  | none => simp [cloneIfMap_eq]
  | some dv => simp [mergeValues_of_src_not_map dv v hm]

/-- Witness for C3 at a concrete input: `B`'s array value at "k" replaces
`A`'s wholly. -/
theorem deepMerge_src_value_wins_witness :
    lookupTree
      (DeepMerge [("k", .vArr [.vInt 1]), ("j", .vStr "keep")]
        [("k", .vArr [.vInt 2, .vInt 3])]) "k" =
      some (.vArr [.vInt 2, .vInt 3]) :=
  deepMerge_src_value_wins _ _ _ _ (by decide) rfl rfl

/-- C4.  For all trees A and B and every shared key k at which both A and
B hold nested string-keyed maps, Merge(A,B)[k] equals Merge(A[k], B[k]) —
deep merge satisfies the recursive law at map-valued keys. -/
theorem deepMerge_recursive_law (A B : Tree) (k : String) (da sa : Tree)
    (hnd : nodupKeys B) (ha : lookupTree A k = some (.vMap da))
    (hb : lookupTree B k = some (.vMap sa)) :
    lookupTree (DeepMerge A B) k = some (.vMap (DeepMerge da sa)) := by
  rw [lookupTree_DeepMerge_of_src_some A B k _ hnd hb, ha]
  rfl

/-- Witness for C4 at a concrete input: nested maps at "app" combine
recursively. -/
theorem deepMerge_recursive_law_witness :
    lookupTree
      (DeepMerge [("app", .vMap [("x", .vInt 1)])]
        [("app", .vMap [("y", .vInt 2)])]) "app" =
      some (.vMap (DeepMerge [("x", .vInt 1)] [("y", .vInt 2)])) :=
  deepMerge_recursive_law _ _ _ _ _ (by decide) rfl rfl

/-- `KeyKind` from key_lex.go. -/
inductive KeyKind where
  | selfKey : KeyKind
  | stringKey : KeyKind
  | indexKey : KeyKind
deriving Repr, DecidableEq

/-- `KeyPart` from key_lex.go; its dynamic `Interface` field always holds
a string in the parser's output (`String()` casts it back). -/
structure KeyPart where
  kind : KeyKind
  val  : String
deriving Repr, DecidableEq

/-- `Key` from key_lex.go. -/
structure Key where
  raw   : String
  parts : List KeyPart
deriving Repr, DecidableEq

/-- The character loop of `KeySplit` (key_lex.go), embedded over the rune
list, with `i` tracking the byte offset Go's `range` yields for the
current rune.  One Go detail is kept exactly as the code behaves: the
escape case writes the rune after `\` into the buffer, but its
`i += width - 1` reassigns only the loop's per-iteration copy of `i`, so
the `range` loop still visits that rune again on the next iteration.  A
`\` as the last rune is the dangling-escape error (`i+1 >= len(key)`
holds iff nothing follows the one-byte `\`). -/
def keySplitGo : List Char → Nat → List String → String → Bool → Char →
    Except String (List String)
  | [], _, parts, buf, inQuotes, _ =>
    if inQuotes then .error "unclosed quote in key"
    else .ok (parts ++ [buf])
  | r :: rest, i, parts, buf, inQuotes, quoteChar =>
    if r = '\'' ∨ r = '"' then
      if inQuotes then
        if r = quoteChar then
          keySplitGo rest (i + r.utf8Size) parts buf false (Char.ofNat 0)
        else
          keySplitGo rest (i + r.utf8Size) parts (buf.push r) true quoteChar
      else
        keySplitGo rest (i + r.utf8Size) parts buf true r
    else if r = '.' ∧ inQuotes = false then
      keySplitGo rest (i + r.utf8Size) (parts ++ [buf]) "" inQuotes quoteChar
    else if r = '\\' then
      match rest with
      | [] => .error ("dangling escape at position " ++ toString i)
      | next :: _ =>
        keySplitGo rest (i + r.utf8Size) parts (buf.push next) inQuotes quoteChar
    else
      keySplitGo rest (i + r.utf8Size) parts (buf.push r) inQuotes quoteChar

/-- `KeySplit` from key_lex.go: parses a dotted key path into parts,
respecting quotes; the literal key "." is the whole-tree self key. -/
def KeySplit (key : String) : Except String Key :=
  if key = "." then .ok { raw := key, parts := [⟨.selfKey, key⟩] }
  else
    match keySplitGo key.data 0 [] "" false (Char.ofNat 0) with
    | .error e => .error e
    | .ok ps => .ok { raw := key, parts := ps.map fun s => ⟨.stringKey, s⟩ }

example :
    KeySplit "a.b.c" =
      .ok { raw := "a.b.c",
            parts := [⟨.stringKey, "a"⟩, ⟨.stringKey, "b"⟩, ⟨.stringKey, "c"⟩] } := rfl

example :
    KeySplit "a.'b.c'.\"c\"" =
      .ok { raw := "a.'b.c'.\"c\"",
            parts := [⟨.stringKey, "a"⟩, ⟨.stringKey, "b.c"⟩, ⟨.stringKey, "c"⟩] } := rfl

example : KeySplit "'a.b" = .error "unclosed quote in key" := rfl

example : KeySplit "a.b\\" = .error "dangling escape at position 3" := rfl

/-- Go's `strings.ToUpper`, modelled on its ASCII fragment over the rune
list (every string this development upper-cases is ASCII). -/
def strToUpper (s : String) : String :=
  String.mk (s.data.map Char.toUpper)

/-- `sanitizeEnvKeyPart` from key_lex.go.  The builder loop writes `_`
for every rune that is not a letter or digit; a result that begins with
a digit gets `_` prepended and — as the code is written — skips the
upper-casing, which only the other return path applies.  Go's Unicode
letter and digit classes are modelled by their ASCII fragments, which
cover every input in this development. -/
def sanitizeEnvKeyPart (part : String) : String :=
  let result := String.mk (part.data.map fun r =>
    if r.isAlpha ∨ r.isDigit then r else '_')
  match result.data with
  | [] => strToUpper result
  | c :: _ => if c.isDigit then "_" ++ result else strToUpper result

/-- `EnvKey` from key_lex.go: sanitize each part, join with `__`, and
prepend the upper-cased prefix string and `_` when one is set. -/
def Key.envKey (k : Key) (pfx : String) : String :=
  let sanitizedParts := k.parts.map fun p => sanitizeEnvKeyPart p.val
  if pfx ≠ "" then
    strToUpper pfx ++ "_" ++ String.intercalate "__" sanitizedParts
  else String.intercalate "__" sanitizedParts

/-- Claim C7's environment-name computation, written from the claim's own
words (a second definition, for comparison with `Key.envKey` above):
replace every rune that is not a letter or digit with `_`, upper-case the
result, prepend `_` if it begins with a digit, join the parts with `__`,
and prepend the prefix stripped of trailing separators followed by `_`
when a prefix is set. -/
def envNameClaim (k : Key) (pfx : String) : String :=
  let sanitized := k.parts.map fun p =>
    let upped := strToUpper (String.mk (p.val.data.map fun r =>
      if r.isAlpha ∨ r.isDigit then r else '_'))
    match upped.data with
    | [] => upped
    | c :: _ => if c.isDigit then "_" ++ upped else upped
  let joined := String.intercalate "__" sanitized
  if pfx ≠ "" then
    String.mk ((pfx.data.reverse.dropWhile (· = '_')).reverse) ++ "_" ++ joined
  else joined

/-- The amended claim C7, written from its amended words: replace every
rune that is not a letter or digit with `_`; if the sanitized part begins
with a digit, prepend `_` and leave it un-upper-cased, otherwise
upper-case it; join the parts with `__`; when a prefix is set, prepend
the upper-cased prefix exactly as given (no separator stripping)
followed by `_`. -/
def envNameAmended (k : Key) (pfx : String) : String :=
  let sanitized := k.parts.map fun p =>
    let replaced := String.mk (p.val.data.map fun r =>
      if r.isAlpha ∨ r.isDigit then r else '_')
    match replaced.data with
    | [] => strToUpper replaced
    | c :: _ => if c.isDigit then "_" ++ replaced else strToUpper replaced
  let joined := String.intercalate "__" sanitized
  if pfx ≠ "" then strToUpper pfx ++ "_" ++ joined else joined

/-- C7 counterexample: on the parsed key "1abc" with prefix "MY_" the code
computes "MY___1abc" while the claim's computation yields "MY__1ABC" —
the code neither upper-cases a digit-leading part nor strips the
prefix's trailing separator. -/
theorem envKey_spec_counterexample :
    KeySplit "1abc" = .ok { raw := "1abc", parts := [⟨.stringKey, "1abc"⟩] } ∧
    Key.envKey { raw := "1abc", parts := [⟨.stringKey, "1abc"⟩] } "MY_" =
      "MY___1abc" ∧
    envNameClaim { raw := "1abc", parts := [⟨.stringKey, "1abc"⟩] } "MY_" =
      "MY__1ABC" ∧
    ("MY___1abc" : String) ≠ "MY__1ABC" :=
  ⟨rfl, rfl, rfl, by decide⟩

/-- C7 (amended).  The derived environment-variable name replaces every
rune that is not a letter or digit with `_`, prefixes the part with `_`
and leaves it un-upper-cased when it begins with a digit (upper-casing it
otherwise), joins the parts with `__`, and prepends the upper-cased
prefix as given followed by `_` when a prefix is set. -/
theorem envKey_amended_characterization (k : Key) (pfx : String) :
    Key.envKey k pfx = envNameAmended k pfx := by
  unfold Key.envKey envNameAmended sanitizeEnvKeyPart
  rfl

/-- C5 (code bug): the escape case of `KeySplit` writes the escaped rune
into the buffer but its index skip is dead code under Go's `range` loop,
so the escaped rune is processed a second time: an escaped dot still
terminates the part ("a\.b" parses to ["a.", "b"], not to the single part
"a.b"), and an escaped quote still opens a quoted segment (so "a\'b"
fails as an unclosed quote instead of parsing to "a'b"). -/
theorem keySplit_escape_reprocessed :
    KeySplit "a\\.b" =
      .ok { raw := "a\\.b",
            parts := [⟨.stringKey, "a."⟩, ⟨.stringKey, "b"⟩] } ∧
    KeySplit "a\\'b" = .error "unclosed quote in key" :=
  ⟨rfl, rfl⟩

/-- The traversal loop of `GetE` (part_006 / config.go): walk all parts
but the last expecting nested maps, then look up the last part.  The Go
code accumulates a dotted prefix only for its error messages; the
embedding threads that prefix the same way.  An empty parts list cannot
come out of `KeySplit` (it always emits at least one part) and maps to a
not-found error. -/
def getPath (m : Tree) (parts : List String) (pfxMsg : String)
    (key : String) : Except String Value :=
  match parts with
  | [] => .error ("key not found: " ++ key)
  | [last] =>
    match lookupTree m last with
    | some v => .ok v
    | none => .error ("key not found: " ++ key)
  | part :: rest =>
    match lookupTree m part with
    | none => .error ("key not found: " ++ pfxMsg ++ part)
    | some (.vMap sub) => getPath sub rest (pfxMsg ++ part ++ ".") key
    | some _ => .error ("invalid type for key: " ++ pfxMsg ++ part ++
        " (expected map)")

/-- `Config.GetE` from part_006: "." returns the whole current tree,
otherwise the key is split and the merged tree traversed. -/
def GetE (config : Tree) (key : String) : Except String Value :=
  if key = "." then .ok (.vMap config)
  else
    match KeySplit key with
    | .error e => .error e
    | .ok k => getPath config (k.parts.map KeyPart.val) "" key

/-- `getValueE` from config.go: raw `GetE`, then the type-coercion
function; the first failure is returned. -/
def getValueE {α : Type} (config : Tree) (key : String)
    (conv : Value → Except String α) : Except String α :=
  match GetE config key with
  | .error e => .error e
  | .ok v =>
    match conv v with
    | .error e => .error e
    | .ok t => .ok t

/-- `getValue` from config.go: the defaulting convention — Go's
`var zero T` (here `default`) on any failure, the coerced value
otherwise. -/
def getValue {α : Type} [Inhabited α] (config : Tree) (key : String)
    (conv : Value → Except String α) : α :=
  match GetE config key with
  | .error _ => default
  | .ok v =>
    match conv v with
    | .error _ => default
    | .ok t => t

/-- `getValueMust` from config.go: the asserting convention.  Go's
`panic(err)`, which irrecoverably terminates the calling operation, is
modelled as the `.error` branch of the result. -/
def getValueMust {α : Type} (config : Tree) (key : String)
    (conv : Value → Except String α) : Except String α :=
  match GetE config key with
  | .error e => .error e
  | .ok v =>
    match conv v with
    | .error e => .error e
    | .ok t => .ok t

/-- C9.  For every key and coercion: the defaulting getter returns the
type's zero value exactly when the fallible getter fails and otherwise
the same value, and the asserting getter panics (modelled as `.error`)
exactly when the fallible getter fails and otherwise returns the same
value. -/
theorem typed_getter_conventions {α : Type} [Inhabited α] (config : Tree)
    (key : String) (conv : Value → Except String α) :
    (getValue config key conv =
      match getValueE config key conv with
      | .error _ => (default : α)
      | .ok v => v) ∧
    getValueMust config key conv = getValueE config key conv := by
  unfold getValue getValueE getValueMust
  cases GetE config key with
  | error e => simp
  | ok v => cases h : conv v <;> simp [h]

/-- Both-ends space trim over a rune list (for the display-name part). -/
def trimSpaces (cs : List Char) : List Char :=
  ((cs.dropWhile (· = ' ')).reverse.dropWhile (· = ' ')).reverse

/-- An `@`-separated address with nonempty local and domain parts. -/
def isValidAddrSpec (a : List Char) : Bool :=
  match a.splitOn '@' with
  | [l, d] => !l.isEmpty && !d.isEmpty
  | _ => false

/-- Modelled contract of Go's `net/mail.ParseAddress` (an external
standard-library collaborator, not repository code), restricted to the
address shapes the spec's scenarios exercise: `Name <local@domain>`
carries the display name written before the angle bracket, a bare
`local@domain` has an empty display name, and a string without a valid
`local@domain` core is a parse error.  Returns (display name, canonical
address). -/
def parseAddress (s : String) : Except String (String × String) :=
  if s.data.contains '<' then
    match s.data.splitOn '<' with
    | [nameCs, rest] =>
      match rest.reverse with
      | '>' :: addrRev =>
        let addr := addrRev.reverse
        if isValidAddrSpec addr then
          .ok (String.mk (trimSpaces nameCs), String.mk addr)
        else .error "mail: invalid address"
      | _ => .error "mail: unclosed angle-addr"
    | _ => .error "mail: invalid address"
  else if isValidAddrSpec s.data then .ok ("", s)
  else .error "mail: invalid or missing address"

/-- The `email` rule of `Validate` (validate.go): parse the field's
string with `mail.ParseAddress`; a parse failure is an "invalid email"
error; a nonempty display name is rejected; otherwise the field is set
to the canonical `addr.Address`, returned here as the new field value. -/
def validateEmail (str : String) : Except String String :=
  match parseAddress str with
  | .error e => .error ("invalid email: " ++ e)
  | .ok (name, address) =>
    if name ≠ "" then .error "email must not contain a display name"
    else .ok address

/-- C8.  The email rule accepts the bare address "a@b.com" and normalizes
the field to the canonical address (unchanged here), while
"Name <a@b.com>" is rejected with a validation error for the display
name. -/
theorem email_rule_display_name :
    validateEmail "a@b.com" = .ok "a@b.com" ∧
    validateEmail "Name <a@b.com>" =
      .error "email must not contain a display name" :=
  ⟨rfl, rfl⟩

/-- Generic association-list lookup (flag tables, environment tables and
the file table below). -/
def lookupAssoc {α : Type} : List (String × α) → String → Option α
  | [], _ => none
  | (k1, v) :: rest, k => if k1 = k then some v else lookupAssoc rest k

theorem mem_of_lookupAssoc_some {α : Type} (l : List (String × α))
    (k : String) (v : α) (h : lookupAssoc l k = some v) :
    k ∈ l.map Prod.fst := by
  induction l with
  | nil => simp [lookupAssoc] at h
  | cons p rest ih =>
    obtain ⟨k1, v1⟩ := p
    by_cases h1 : k1 = k
    · subst h1; simp
    · rw [lookupAssoc, if_neg h1] at h
      simp [ih h]

theorem length_filter_le_of_imp {α : Type} (l : List α) (p q : α → Bool)
    (h : ∀ a, q a = true → p a = true) :
    (l.filter q).length ≤ (l.filter p).length := by
  induction l with
  | nil => simp
  | cons a l ih =>
    cases hq : q a <;> cases hp : p a <;>
      simp only [List.filter, hq, hp, List.length_cons]
    · exact ih
    · exact Nat.le_succ_of_le ih
    · exact absurd (h a hq) (by simp [hp])
    · exact Nat.succ_le_succ ih

theorem length_filter_lt_of_witness {α : Type} (l : List α) (p q : α → Bool)
    (h : ∀ x, q x = true → p x = true) (a : α) (ha : a ∈ l)
    (hpa : p a = true) (hqa : q a = false) :
    (l.filter q).length < (l.filter p).length := by
  induction l with
  | nil => simp at ha
  | cons b l ih =>
    rcases List.mem_cons.mp ha with rfl | hmem
    · have hle := length_filter_le_of_imp l p q h
      simp only [List.filter, hpa, hqa, List.length_cons]
      omega
    · cases hq : q b <;> cases hp : p b <;>
        simp only [List.filter, hq, hp, List.length_cons]
      · exact ih hmem
      · exact Nat.lt_succ_of_lt (ih hmem)
      · exact absurd (h b hq) (by simp [hp])
      · exact Nat.succ_lt_succ (ih hmem)

/-- Termination measure for the include recursion: how many known files
are not yet on the active inclusion chain. -/
def fsFreeCount (files : List (String × Tree)) (visited : List String) : Nat :=
  ((files.map Prod.fst).filter (fun p => !(decide (p ∈ visited)))).length

theorem fsFreeCount_lt (files : List (String × Tree)) (path : String)
    (visited : List String) (hmem : path ∈ files.map Prod.fst)
    (hnv : ¬ path ∈ visited) :
    fsFreeCount files (path :: visited) < fsFreeCount files visited := by
  refine length_filter_lt_of_witness _ _ _ ?_ path hmem ?_ ?_
  · intro x hx
    simp only [Bool.not_eq_true', decide_eq_false_iff_not, List.mem_cons,
      not_or] at hx
    simp [hx.2]
  · simp [hnv]
  · simp

/-- The abstract file system one include resolution runs against.
`files` holds each resolved path's decoded tree, the observable
behaviour of `Config.parse` (stat, extension-based decoder choice and
byte-level decoding are external I/O, consumed through the spec's
`Decode` contract); `resolve` models the external `FindPath(baseDir,
include)`; `dirOf` models `filepath.Dir`. -/
structure FS where
  files   : List (String × Tree)
  resolve : String → String → Option String
  dirOf   : String → String

mutual
/-- `readConfigFile` from config.go / part_006: reject a path already on
the active inclusion chain ("cycle import detected"), parse the file,
resolve and fold its `include` directive into an accumulator, and
deep-merge the file's own remaining content on top last.  Go marks
`visited[path] = true` and removes the mark on return
(`defer delete(visited, path)`); functionally, the chain `path ::
visited` is passed to the recursive calls and the caller's chain is
untouched, which is exactly the mark-then-restore discipline.  Go
deletes the `include` key before the switch and merges the mutated `m`
at the end; the embedding reads the directive first and removes the key
at the merge, which is the same tree (deleting an absent key is a
no-op).  The returned string list models the `logger.Warn` messages
emitted for include failures (warnings logged inside a load that itself
fails are dropped with it; no claim observes them). -/
def readConfigFile (fs : FS) (path : String) (visited : List String) :
    Except String (Tree × List String) :=
  if hv : path ∈ visited then .error ("cycle import detected: " ++ path)
  else
    match hp : lookupAssoc fs.files path with
    | none => .error ("config file not found: " ++ path)
    | some m =>
      let bw := includeBase fs (fs.dirOf path) (lookupTree m "include")
        (path :: visited)
      .ok (DeepMerge bw.1 (removeKey m "include"), bw.2)
termination_by (fsFreeCount fs.files visited, 0, 0)
decreasing_by
  all_goals
    apply Prod.Lex.left
    exact fsFreeCount_lt fs.files path visited
      (mem_of_lookupAssoc_some _ _ _ hp) hv

/-- The `include` directive switch of `readConfigFile`: a single string
resolves once into an empty accumulator; a sequence folds each string
item in listed order; any other value (or no directive) contributes
nothing. -/
def includeBase (fs : FS) (dir : String) (incVal : Option Value)
    (visited : List String) : Tree × List String :=
  match incVal with
  | some (.vStr inc) =>
    match resolveInclude fs dir inc visited with
    | .error e => ([], [e])
    | .ok (t, w) => (DeepMerge [] t, w)
  | some (.vArr items) => includeList fs dir items visited [] []
  | _ => ([], [])
termination_by (fsFreeCount fs.files visited, 3, 0)
decreasing_by
  · apply Prod.Lex.right
    apply Prod.Lex.left
    omega
  · apply Prod.Lex.right
    apply Prod.Lex.left
    omega

/-- The `[]any` loop of the include switch: fold each successfully
loaded tree into the accumulator via `DeepMerge` in listed order; a
failed include is logged and skipped; non-string items are skipped. -/
def includeList (fs : FS) (dir : String) (items : List Value)
    (visited : List String) (base : Tree) (warns : List String) :
    Tree × List String :=
  match items with
  | [] => (base, warns)
  | .vStr inc :: rest =>
    match resolveInclude fs dir inc visited with
    | .error e => includeList fs dir rest visited base (warns ++ [e])
    | .ok (t, w) =>
      includeList fs dir rest visited (DeepMerge base t) (warns ++ w)
  | _ :: rest => includeList fs dir rest visited base warns
termination_by (fsFreeCount fs.files visited, 2, items.length)
decreasing_by
  · apply Prod.Lex.right
    apply Prod.Lex.left
    omega
  · apply Prod.Lex.right
    apply Prod.Lex.right
    simp
  · apply Prod.Lex.right
    apply Prod.Lex.right
    simp
  · apply Prod.Lex.right
    apply Prod.Lex.right
    simp

/-- `resolveInclude` from config.go: resolve the include reference
relative to the including file's directory, then load it with the same
visited chain. -/
def resolveInclude (fs : FS) (dir : String) (inc : String)
    (visited : List String) : Except String (Tree × List String) :=
  match fs.resolve dir inc with
  | none => .error ("failed to resolve path: " ++ inc)
  | some p => readConfigFile fs p visited
termination_by (fsFreeCount fs.files visited, 1, 0)
decreasing_by
  apply Prod.Lex.right
  apply Prod.Lex.left
  omega
end

theorem lookupTree_removeKey_of_ne (m : Tree) (kr k : String)
    (h : k ≠ kr) : lookupTree (removeKey m kr) k = lookupTree m k := by
  induction m with
  | nil => rfl
  | cons p rest ih =>
    obtain ⟨k1, v1⟩ := p
    by_cases h1 : k1 = kr
    · subst h1
      have h2 : k1 ≠ k := fun hx => h hx.symm
      simp [removeKey, lookupTree, h2, List.filter] at ih ⊢
      exact ih
    · simp [removeKey, lookupTree, h1, List.filter] at ih ⊢
      by_cases h2 : k1 = k <;> simp [h2, ih]

theorem nodupKeys_removeKey (m : Tree) (kr : String) (h : nodupKeys m) :
    nodupKeys (removeKey m kr) :=
  h.sublist ((List.filter_sublist m).map Prod.fst)

/-- The spec's concrete include scenario:
`main.json = {"include":["a.yaml"], "app":{"port":"8080"}}` and
`a.yaml: app: {port: 9000, env: prod}`, with trivial path
resolution. -/
def scenarioFS : FS where
  files :=
    [("main.json", [("include", .vArr [.vStr "a.yaml"]),
                    ("app", .vMap [("port", .vStr "8080")])]),
     ("a.yaml", [("app", .vMap [("port", .vInt 9000), ("env", .vStr "prod")])])]
  resolve := fun _ inc => some inc
  dirOf := fun _ => "."

/-- C2.  Included files are folded into an accumulator in listed order
and the file's own non-include content is deep-merged on top last, so a
key held directly in the file (with a non-map value) always wins over
the same key from any included file — stated generally over any file
system — and in the spec's scenario the merged result has
app.port == "8080" (from main.json) and app.env == "prod" (from
a.yaml). -/
theorem include_own_content_wins :
    (∀ (fs : FS) (path : String) (visited : List String) (m t : Tree)
      (w : List String) (k : String) (v : Value),
      lookupAssoc fs.files path = some m →
      nodupKeys m →
      k ≠ "include" →
      lookupTree m k = some v →
      v.isMap = false →
      readConfigFile fs path visited = .ok (t, w) →
      lookupTree t k = some v) ∧
    (readConfigFile scenarioFS "main.json" [] =
      .ok ([("app", .vMap [("port", .vStr "8080"), ("env", .vStr "prod")])],
        []) ∧
     GetE [("app", .vMap [("port", .vStr "8080"), ("env", .vStr "prod")])]
       "app.port" = .ok (.vStr "8080") ∧
     GetE [("app", .vMap [("port", .vStr "8080"), ("env", .vStr "prod")])]
       "app.env" = .ok (.vStr "prod")) := by
  constructor
  · intro fs path visited m t w k v hm hnd hki hk hvm hrun
    rw [readConfigFile.eq_def] at hrun
    by_cases hv : path ∈ visited
    · rw [dif_pos hv] at hrun
      exact absurd hrun (by simp)
    · rw [dif_neg hv] at hrun
      split at hrun
      · exact absurd hrun (by simp)
      · rename_i m1 hp
        rw [hm] at hp
        injection hp with hp
        subst hp
        simp only [Except.ok.injEq, Prod.mk.injEq] at hrun
        obtain ⟨ht, _⟩ := hrun
        subst ht
        exact deepMerge_src_value_wins _ _ _ _ (nodupKeys_removeKey _ _ hnd)
          ((lookupTree_removeKey_of_ne _ _ _ hki).trans hk) hvm
  · refine ⟨?_, rfl, rfl⟩
    simp [readConfigFile, includeBase, includeList, resolveInclude,
      scenarioFS, lookupAssoc, lookupTree, removeKey, DeepMerge, mergeValues,
      cloneIfMap, cloneTree, setKey]

/-- A file system with a transitive include cycle: a.json includes
b.json then c.json; b.json includes a.json again. -/
def cycleFS : FS where
  files :=
    [("a.json", [("include", .vArr [.vStr "b.json", .vStr "c.json"]),
                 ("own", .vStr "a")]),
     ("b.json", [("include", .vStr "a.json"), ("bkey", .vStr "b")]),
     ("c.json", [("ckey", .vStr "c")])]
  resolve := fun _ inc => some inc
  dirOf := fun _ => "."

/-- C6.  A file already on the active inclusion chain is rejected with a
cycle error naming the path — universally, so every direct or transitive
self-include terminates at its cyclic edge (the resolver itself is a
total function, so no load recurses forever) — and at a concrete
transitive cycle (a includes b and c, b includes a again) the load still
resolves the unrelated include and both files' own content, the cyclic
edge surfacing only as the logged cycle warning. -/
theorem include_cycle_rejected :
    (∀ (fs : FS) (path : String) (visited : List String),
      path ∈ visited →
      readConfigFile fs path visited =
        .error ("cycle import detected: " ++ path)) ∧
    readConfigFile cycleFS "a.json" [] =
      .ok ([("bkey", .vStr "b"), ("ckey", .vStr "c"), ("own", .vStr "a")],
        ["cycle import detected: a.json"]) := by
  constructor
  · intro fs path visited hv
    rw [readConfigFile.eq_def, dif_pos hv]
  · simp [readConfigFile, includeBase, includeList, resolveInclude, cycleFS,
      lookupAssoc, lookupTree, removeKey, DeepMerge, mergeValues, cloneIfMap,
      cloneTree, setKey]

/-- A diamond of includes: main.json includes x.json and y.json, each of
which includes the same shared.json. -/
def diamondFS : FS where
  files :=
    [("main.json", [("include", .vArr [.vStr "x.json", .vStr "y.json"]),
                    ("m", .vStr "0")]),
     ("x.json", [("include", .vStr "shared.json"), ("x", .vStr "1")]),
     ("y.json", [("include", .vStr "shared.json"), ("y", .vStr "2")]),
     ("shared.json", [("s", .vStr "shared")])]
  resolve := fun _ inc => some inc
  dirOf := fun _ => "."

/-- C10.  The cycle check rejects only files on the current inclusion
chain: a finished load's mark is removed before returning (Go's
`defer delete(visited, path)`; here the caller's chain is simply passed
unchanged to the next sibling), so a file referenced by two different
sibling includes of one top-level load is decoded and merged both times,
with no cycle error or warning anywhere in the result. -/
theorem include_sibling_reuse_allowed :
    readConfigFile diamondFS "main.json" [] =
      .ok ([("s", .vStr "shared"), ("x", .vStr "1"), ("y", .vStr "2"),
            ("m", .vStr "0")], []) := by
  simp [readConfigFile, includeBase, includeList, resolveInclude, diamondFS,
    lookupAssoc, lookupTree, removeKey, DeepMerge, mergeValues, cloneIfMap,
    cloneTree, setKey]

/-- A command-line flag binding: its string value and pflag's "changed"
state. -/
structure Flag where
  value   : String
  changed : Bool
deriving Repr, DecidableEq

/-- A flag table consulted only where its flag reports changed. -/
def flagLookup (flags : List (String × Flag)) (key : String) :
    Option String :=
  match lookupAssoc flags key with
  | some f => if f.changed then some f.value else none
  | none => none

/-- Modelled from the spec: the current `Config` store with explicit
per-key flag overrides (`AddPflag`), a bound flag set (`SetPflagSet`),
an environment table with prefix, the merged tree and the defaults tree
(`SetDefault`).  The fields and their lookup are not present under src/
— only generated wrappers (generated.go), tests (config_test.go) and
the README name them — so they follow the spec's Config Store
contract. -/
structure Store where
  flagOverrides : List (String × Flag)
  flagSet       : List (String × Flag)
  env           : List (String × String)
  envPfx        : String
  config        : Tree
  defaults      : Tree

/-- Modelled from the spec: the precedence-ordered `Config.GetE` — the
implementation is absent from src/ (part_006's `GetE` reads only the
merged tree) — consulting, in order, an explicitly registered flag
override whose changed state is true, a bound flag-set lookup if it
reports the key changed, the environment variable derived by
`Key.envKey` (embedded from src/), the merged configuration tree, and
the defaults tree (tree lookups through the embedded `GetE`).  A failed
merged-tree lookup falls through to defaults without short-circuiting,
per the spec's "fail independently" sentence. -/
def Store.GetE (c : Store) (key : String) : Except String Value :=
  match flagLookup c.flagOverrides key with
  | some v => .ok (.vStr v)
  | none =>
    match flagLookup c.flagSet key with
    | some v => .ok (.vStr v)
    | none =>
      match KeySplit key with
      | .error e => .error e
      | .ok k =>
        match lookupAssoc c.env (k.envKey c.envPfx) with
        | some s => .ok (.vStr s)
        | none =>
          match GoConfig.GetE c.config key with
          | .ok v => .ok v
          | .error _ => GoConfig.GetE c.defaults key

/-- C1.  `Get` consults, in order, explicit per-key flag override, bound
flag set, environment variable, merged file tree, and defaults, and
returns the first source that matches; in particular, a key set
simultaneously with distinct values in a changed flag override, the
derived environment variable, the merged tree and the defaults resolves
to the flag override's value. -/
theorem get_precedence_chain :
    (∀ (c : Store) (key v : String),
      flagLookup c.flagOverrides key = some v →
      c.GetE key = .ok (.vStr v)) ∧
    (∀ (c : Store) (key v : String),
      flagLookup c.flagOverrides key = none →
      flagLookup c.flagSet key = some v →
      c.GetE key = .ok (.vStr v)) ∧
    (∀ (c : Store) (key : String) (k : Key) (s : String),
      flagLookup c.flagOverrides key = none →
      flagLookup c.flagSet key = none →
      KeySplit key = .ok k →
      lookupAssoc c.env (k.envKey c.envPfx) = some s →
      c.GetE key = .ok (.vStr s)) ∧
    (∀ (c : Store) (key : String) (k : Key) (v : Value),
      flagLookup c.flagOverrides key = none →
      flagLookup c.flagSet key = none →
      KeySplit key = .ok k →
      lookupAssoc c.env (k.envKey c.envPfx) = none →
      GetE c.config key = .ok v →
      c.GetE key = .ok v) ∧
    (∀ (c : Store) (key : String) (k : Key) (e : String),
      flagLookup c.flagOverrides key = none →
      flagLookup c.flagSet key = none →
      KeySplit key = .ok k →
      lookupAssoc c.env (k.envKey c.envPfx) = none →
      GetE c.config key = .error e →
      c.GetE key = GetE c.defaults key) ∧
    Store.GetE
      { flagOverrides := [("port", ⟨"1111", true⟩)],
        flagSet := [],
        env := [("PORT", "2222")],
        envPfx := "",
        config := [("port", .vStr "3333")],
        defaults := [("port", .vStr "4444")] } "port" = .ok (.vStr "1111") := by
  refine ⟨?_, ?_, ?_, ?_, ?_, rfl⟩
  · intro c key v h
    simp only [Store.GetE, h]
  · intro c key v h1 h2
    simp only [Store.GetE, h1, h2]
  · intro c key k s h1 h2 h3 h4
    simp only [Store.GetE, h1, h2, h3, h4]
  · intro c key k v h1 h2 h3 h4 h5
    simp only [Store.GetE, h1, h2, h3, h4, h5]
  · intro c key k e h1 h2 h3 h4 h5
    simp only [Store.GetE, h1, h2, h3, h4, h5]

end GoConfig
